import Mathlib

/-!
# FunWithPi: the Chudnovsky series evaluator (`piOpenMP.cpp`)

A shallow embedding of `mpz_fact`, `chudnovsky`, `calculatePi` and the verifier loop of
`main`, followed by the properties established about them.

Conventions of the embedding:

* GMP integers (`mpz_t`) are `Int`; the `unsigned long` term index is an unbounded `Nat`.
* GMP floats (`mpf_t`) are idealised as the elements of a field `F` with exact operations;
  `mpf_sqrt` is a parameter `fsqrt : F → F` (instantiated by `Real.sqrt` over `ℝ`).  The
  `precision` argument is carried along but does not influence an exact operation.
* Loops whose termination is not syntactically evident take a `fuel : Nat` bound on the number
  of iterations and fail with `Fault.outOfFuel` when it is exhausted.
* A GMP division by zero is the fault `Fault.divByZero`.
-/

namespace FunWithPi

set_option linter.unusedVariables false

/-! ## Definitions -/

/-- Abnormal outcomes of the embedded code. -/
inductive Fault where
  | outOfFuel
  | divByZero
  deriving DecidableEq

/-- The `while (mpz_sgn(m))` loop of `mpz_fact`: as long as `m` is non-zero, multiply `result`
by `m` and decrement `m`.  Each iteration consumes one unit of fuel. -/
def mpz_fact_loop : Nat → Int → Int → Except Fault Int
  | 0, result, m => if m = 0 then .ok result else .error .outOfFuel
  | fuel + 1, result, m =>
    if m = 0 then .ok result else mpz_fact_loop fuel (result * m) (m - 1)

/-- Source function `mpz_fact(ret, n)`; the value stored in `ret` is returned. -/
def mpz_fact (fuel : Nat) (n : Int) : Except Fault Int :=
  if n < 2 then .ok 1 else mpz_fact_loop fuel 1 n

/-- The constant `token1359` of `chudnovsky`. -/
def token1359 : Int := 13591409

/-- The constant `token5451` of `chudnovsky`. -/
def token5451 : Int := 545140134

/-- The constant `token6403Pow3` of `chudnovsky`: the decimal literal
`"262537412640768000"` parsed in base 10 by `mpz_init_set_str`. -/
def token6403Pow3 : Int := 262537412640768000

/-- The constant `token6403` of `chudnovsky`. -/
def token6403 : Int := 640320

/-- The integer part of `chudnovsky` (source lines 107-154): the pair
`(numerator, denominatorPart1)` as it stands just before the conversion to floats. -/
def chudnovskyInts (fuel : Nat) (i : Nat) : Except Fault (Int × Int) := do
  let k1 : Nat := i
  let k2 : Int := (i : Int)
  let tokenNeg1PowK : Int := if i % 2 = 0 then 1 else -1
  let kMul6Fact : Int := k2 * 6
  let kMul6Fact ← mpz_fact fuel kMul6Fact
  let kMul3Fact : Int := k2 * 3
  let kMul3Fact ← mpz_fact fuel kMul3Fact
  let kFactCube ← mpz_fact fuel k2
  let kFactCube : Int := kFactCube ^ 3
  let numerator : Int := token5451 * k2
  let numerator : Int := numerator + token1359
  let numerator : Int := numerator * kMul6Fact
  let numerator : Int := numerator * tokenNeg1PowK
  let denominatorPart1 : Int := token6403Pow3 ^ k1
  let denominatorPart1 : Int := denominatorPart1 * token6403
  let denominatorPart1 : Int := denominatorPart1 * kFactCube
  let denominatorPart1 : Int := denominatorPart1 * kMul3Fact
  pure (numerator, denominatorPart1)

/-- GMP float division `mpf_div` / `mpf_ui_div`, idealised as exact: a zero divisor is a
fault. -/
def mpf_div {F : Type} [Field F] [DecidableEq F] (a b : F) : Except Fault F :=
  if b = 0 then .error .divByZero else .ok (a / b)

/-- Source function `chudnovsky(rop, precision, i)`; the value stored in `rop` is returned. -/
def chudnovsky (F : Type) [Field F] [DecidableEq F] (fsqrt : F → F) (fuel : Nat)
    (precision : Nat) (i : Nat) : Except Fault F := do
  let sum : F := 0
  let token6403NegSqrt : F := ((640320 : Nat) : F)
  let token6403NegSqrt : F := fsqrt token6403NegSqrt
  let token6403NegSqrt ← mpf_div 1 token6403NegSqrt
  let (numerator, denominatorPart1) ← chudnovskyInts fuel i
  let numeratorF : F := (numerator : F)
  let denominatorPart1F : F := (denominatorPart1 : F)
  let fraction ← mpf_div numeratorF denominatorPart1F
  let fraction : F := fraction * token6403NegSqrt
  let sum : F := sum + fraction
  pure sum

/-- The loop of `calculatePi` over the term indices in the order `order` in which the
scheduler hands them out: each index is evaluated by `chudnovsky` and the term is added to the
accumulator `*pi` inside the critical section. -/
def calculatePi_loop (F : Type) [Field F] [DecidableEq F] (fsqrt : F → F) (fuel : Nat)
    (precision : Nat) : List Nat → F → Except Fault F
  | [], pi => .ok pi
  | i :: rest, pi => do
    let sum ← chudnovsky F fsqrt fuel precision i
    calculatePi_loop F fsqrt fuel precision rest (pi + sum)

/-- Source function `calculatePi(pi, numThreads, numIterations, precision)`.  The argument `pi0`
is the value `*pi` holds on entry, and `sched` is the dynamic schedule: the order in which the
indices `0, ..., numIterations - 1` of the parallel loop reach the critical section.  After
the barrier the sum is multiplied by `12` and inverted. -/
def calculatePi (F : Type) [Field F] [DecidableEq F] (fsqrt : F → F) (fuel : Nat)
    (sched : List Nat → List Nat) (pi0 : F) (numThreads : Nat) (numIterations : Nat)
    (precision : Nat) : Except Fault F := do
  let pi ← calculatePi_loop F fsqrt fuel precision (sched (List.range numIterations)) pi0
  let pi : F := pi * ((12 : Nat) : F)
  mpf_div 1 pi

/-- Conversion of an `int` returned by `atoi` to `unsigned long` (64 bits). -/
def toUnsignedLong (x : Int) : Nat := (x % 2 ^ 64).toNat

/-- The computing part of `main` (source lines 235-256) on the three integers that `atoi`
returns for the arguments `nThreads`, `nIters` and `precisionInBytes`: they are stored in
`unsigned long` variables without any check, `pi` is initialised to zero, and `calculatePi` is
called. -/
def main_calculate (F : Type) [Field F] [DecidableEq F] (fsqrt : F → F) (fuel : Nat)
    (sched : List Nat → List Nat) (argThreads argIters argPrecision : Int) : Except Fault F :=
  let threadCount : Nat := toUnsignedLong argThreads
  let iterCount : Nat := toUnsignedLong argIters
  let precision : Nat := toUnsignedLong (8 * argPrecision)
  let pi : F := 0
  calculatePi F fsqrt fuel sched pi threadCount iterCount precision

/-- The series term as the specification writes it:
`term(k) = (-1)^k (6k)! (545140134 k + 13591409) /
  ((3k)! (k!)^3 (640320^3)^k * 640320 * sqrt(640320))`. -/
def specTerm (F : Type) [Field F] (fsqrt : F → F) (k : Nat) : F :=
  (-1) ^ k * ((6 * k).factorial : F) * (545140134 * (k : F) + 13591409) /
    (((3 * k).factorial : F) * ((k.factorial : F)) ^ 3 * ((640320 : F) ^ 3) ^ k * 640320
      * fsqrt 640320)

/-- The magnitude of the series term: `specTerm` without the sign `(-1)^k`. -/
def specTermAbs (F : Type) [Field F] (fsqrt : F → F) (k : Nat) : F :=
  ((6 * k).factorial : F) * (545140134 * (k : F) + 13591409) /
    (((3 * k).factorial : F) * ((k.factorial : F)) ^ 3 * ((640320 : F) ^ 3) ^ k * 640320
      * fsqrt 640320)

/-- Library call `fgetc` on the reference stream, modelled as the list of characters still
unread: the next character and the rest of the stream, or `none` (the value `EOF`) at the
end. -/
def fgetc (refFile : List Char) : Option Char × List Char :=
  match refFile with
  | [] => (none, [])
  | c :: rest => (some c, rest)

/-- The verifier loop of `main` (source lines 289-294).  The first argument is the part of
`piStr` from index `i` on, the second the unread part of the reference file; `i` and `curPos`
are the variables of the source.  The value of `curPos` on exit is returned.  The characters of
`piStr` are those of a number rendered by `gmp_asprintf`, none of which compares equal to
`EOF`. -/
def verifier_loop : List Char → List Char → Int → Int → Int
  | [], _, _, curPos => curPos
  | c :: rest, refFile, i, _ =>
    let curPos := i
    match fgetc refFile with
    | (some d, refFile') =>
      if c ≠ d then curPos else verifier_loop rest refFile' (i + 1) curPos
    | (none, _) => curPos

/-- The value of `accuracy` in `main` (source lines 289-297) for the computed string `piStr`
and the contents `refFile` of the reference file. -/
def verifier_accuracy (piStr refFile : List Char) : Int :=
  let curPos := verifier_loop piStr refFile 0 0
  curPos - 1

/-- The specification's stopping index of a lock-step scan of `S` and `R`: the index of the
first position at which they differ or, when they do not differ before one of them ends, the
length of the shorter one.  It is the number of leading characters of `S` that match `R`. -/
def commonPrefixLength : List Char → List Char → Nat
  | c :: s, d :: r => if c = d then commonPrefixLength s r + 1 else 0
  | _, _ => 0

/-- The value of `digitsCalculated` in `main` (source line 298): the length of `piStr` less the
two characters of the leading `3.`. -/
def digitsCalculated (piStr : List Char) : Int := (piStr.length : Int) - 2

/-- Library call `round` on an exact rational: the nearest integer, halves away from zero. -/
def c_round (q : ℚ) : Int := if 0 ≤ q then ⌊q + 1 / 2⌋ else -⌊-q + 1 / 2⌋

/-- The percentage printed by `main` (source line 299),
`(int)(round(100 * ((float)accuracy / digitsCalculated)))`, with the float operations idealised
as exact rational arithmetic.  For `digitsCalculated = 0` the quotient is not a number and its
conversion to `int` has no defined value: `none`. -/
def verifier_percent (piStr refFile : List Char) : Option Int :=
  let accuracy := verifier_accuracy piStr refFile
  let digitsCalculated := digitsCalculated piStr
  if digitsCalculated = 0 then none
  else some (c_round (100 * ((accuracy : ℚ) / (digitsCalculated : ℚ))))

/-- Arithmetic on `unsigned long long` wraps modulo `2^64`. -/
def wrapULL (x : Nat) : Nat := x % 2 ^ 64

/-- The send loop of the Monte Carlo coordinator (`monteCarloPiMPI.cpp`, lines 87-96) over the
ranks still to be served; `iterationsPerThread` is the variable of the source, which keeps its
value from one iteration to the next.  Each `MPI_Isend` is recorded as the pair of the
destination rank and the value of `iterationsPerThread` at the time of the call. -/
def coordinator_send_loop (commSize : Int) (remainingIterations : Nat) :
    List Nat → Nat → List (Nat × Nat)
  | [], _ => []
  | i :: rest, iterationsPerThread =>
    let iterationsPerThread :=
      if (i : Int) = commSize - 2 then wrapULL (iterationsPerThread + remainingIterations)
      else iterationsPerThread
    (i, iterationsPerThread) :: coordinator_send_loop commSize remainingIterations rest
      iterationsPerThread

/-- The coordination block of the Monte Carlo `main` (`monteCarloPiMPI.cpp`, lines 79-96) for a
communicator of `commSize` processes: the list of messages `(rank, workload)` sent to the
workers `1, ..., commSize - 1`.  With no worker the division by `numWorkers` faults. -/
def coordinator_sends (numIterations : Nat) (commSize : Nat) : Except Fault (List (Nat × Nat)) :=
  let numWorkers : Nat := commSize - 1
  if numWorkers = 0 then .error .divByZero
  else
    let iterationsPerThread : Nat := numIterations / numWorkers
    let remainingIterations : Nat :=
      if numIterations % numWorkers ≠ 0 then numIterations % numWorkers else 0
    .ok (coordinator_send_loop (commSize : Int) remainingIterations
      (List.range' 1 (commSize - 1)) iterationsPerThread)

/-- The workloads of the specification of the coordinator: every worker but the last is sent
`numIterations / numWorkers`, the last rank `commSize - 1` is sent that plus the leftover
`numIterations mod numWorkers`. -/
def specWorkloads (numIterations : Nat) (commSize : Nat) : List (Nat × Nat) :=
  (List.range' 1 (commSize - 1)).map fun i =>
    (i, if i = commSize - 1
        then numIterations / (commSize - 1) + numIterations % (commSize - 1)
        else numIterations / (commSize - 1))

/-! ## Theorems -/

/-- Loop invariant of `mpz_fact`: started at a natural number `m` with at least `m` units of
fuel, the loop ends with `result * m!`. -/
theorem mpz_fact_loop_eq (m : Nat) :
    ∀ (fuel : Nat) (result : Int), m ≤ fuel →
      mpz_fact_loop fuel result (m : Int) = .ok (result * (m.factorial : Int)) := by
  induction m with
  | zero =>
    intro fuel result _
    cases fuel <;> simp [mpz_fact_loop]
  | succ m ih =>
    intro fuel result h
    cases fuel with
    | zero => omega
    | succ fuel =>
      have hne : ((m : Int) + 1 = 0) ↔ False := by
        constructor
        · intro h0
          omega
        · intro h0
          exact h0.elim
      have := ih fuel (result * ((m : Int) + 1)) (by omega)
      simp only [mpz_fact_loop, Nat.cast_succ, hne, if_false, add_sub_cancel_right, this]
      rw [Nat.factorial_succ]
      push_cast
      ring_nf

/-- The factorial evaluator on every integer, given enough fuel. -/
theorem mpz_fact_eq (fuel : Nat) (n : Int) (h : n.toNat ≤ fuel) :
    mpz_fact fuel n = .ok (n.toNat.factorial : Int) := by
  unfold mpz_fact
  split
  · rename_i h2
    have : n.toNat = 0 ∨ n.toNat = 1 := by omega
    rcases this with h0 | h1
    · simp [h0]
    · simp [h1]
  · rename_i h2
    have hn : n = (n.toNat : Int) := by omega
    have key := mpz_fact_loop_eq n.toNat fuel 1 h
    rw [← hn] at key
    rw [key, one_mul]

/-- C1: for every integer `n ≥ 0`, `mpz_fact` stores `n!`; for every `n < 2` (zero, one and the
negative integers) it stores `1`; in particular `0! = 1`, `1! = 1`, `5! = 120` and
`10! = 3628800`.  Any fuel of at least `n` loop iterations suffices. -/
theorem mpz_fact_spec (fuel : Nat) (n : Int) (h : n.toNat ≤ fuel) :
    (0 ≤ n → mpz_fact fuel n = .ok (n.toNat.factorial : Int)) ∧
    (n < 2 → mpz_fact fuel n = .ok 1) ∧
    mpz_fact fuel 0 = .ok 1 ∧ mpz_fact fuel 1 = .ok 1 ∧
    mpz_fact 5 5 = .ok 120 ∧ mpz_fact 10 10 = .ok 3628800 := by
  refine ⟨fun _ => mpz_fact_eq fuel n h, fun h2 => by simp [mpz_fact, h2], ?_, ?_, ?_, ?_⟩
  · simp [mpz_fact]
  · simp [mpz_fact]
  · rfl
  · rfl

/-- Witness for C1 at `n = 5` with six units of fuel. -/
theorem mpz_fact_spec_witness :
    (5 : Int).toNat ≤ 6 ∧ mpz_fact 6 5 = .ok 120 :=
  ⟨by decide, by simpa using (mpz_fact_spec 6 5 (by decide)).1 (by decide)⟩

/-- Closed form of the two integers of `chudnovsky`, given fuel for the largest factorial. -/
theorem chudnovskyInts_eq (fuel k : Nat) (h : 6 * k ≤ fuel) :
    chudnovskyInts fuel k =
      .ok ((545140134 * (k : Int) + 13591409) * ((6 * k).factorial : Int)
              * (if k % 2 = 0 then 1 else -1),
           (262537412640768000 : Int) ^ k * 640320 * ((k.factorial : Int)) ^ 3
              * ((3 * k).factorial : Int)) := by
  have h6 : mpz_fact fuel ((k : Int) * 6) = .ok ((6 * k).factorial : Int) := by
    have := mpz_fact_eq fuel ((k : Int) * 6) (by omega)
    rw [this]
    have : ((k : Int) * 6).toNat = 6 * k := by omega
    rw [this]
  have h3 : mpz_fact fuel ((k : Int) * 3) = .ok ((3 * k).factorial : Int) := by
    have := mpz_fact_eq fuel ((k : Int) * 3) (by omega)
    rw [this]
    have : ((k : Int) * 3).toNat = 3 * k := by omega
    rw [this]
  have h1 : mpz_fact fuel (k : Int) = .ok (k.factorial : Int) := by
    have := mpz_fact_eq fuel (k : Int) (by omega)
    rw [this]
    simp
  simp only [chudnovskyInts, h6, h3, h1, token5451, token1359, token6403Pow3, token6403]
  rfl

/-- The sign computed from the parity of the index is `(-1)^k`. -/
theorem tokenNeg1PowK_eq (k : Nat) : (if k % 2 = 0 then (1 : Int) else -1) = (-1) ^ k := by
  rcases Nat.even_or_odd k with he | ho
  · have : k % 2 = 0 := Nat.even_iff.mp he
    simp [this, he.neg_one_pow]
  · have : k % 2 = 1 := Nat.odd_iff.mp ho
    simp [this, ho.neg_one_pow]

/-- C2: for every term index `k` (an unbounded natural number), the integer `numerator` that
`chudnovsky` holds before the float conversion is exactly
`(-1)^k * (6k)! * (545140134 k + 13591409)`, the sign being `+1` for even `k` and `-1` for odd
`k`.  Fuel for `6k` loop iterations of the factorial suffices. -/
theorem chudnovsky_numerator (fuel k : Nat) (h : 6 * k ≤ fuel) :
    (chudnovskyInts fuel k).map Prod.fst =
        .ok ((-1) ^ k * ((6 * k).factorial : Int) * (545140134 * (k : Int) + 13591409)) ∧
    (k % 2 = 0 → ((-1 : Int)) ^ k = 1) ∧ (k % 2 = 1 → ((-1 : Int)) ^ k = -1) := by
  refine ⟨?_, ?_, ?_⟩
  · rw [chudnovskyInts_eq fuel k h, tokenNeg1PowK_eq]
    show Except.ok _ = Except.ok _
    congr 1
    ring
  · intro he
    exact (Nat.even_iff.mpr he).neg_one_pow
  · intro ho
    exact (Nat.odd_iff.mpr ho).neg_one_pow

/-- Witness for C2 at `k = 1`: the numerator is `-(6!) * 558731543`. -/
theorem chudnovsky_numerator_witness :
    6 * 1 ≤ 6 ∧ (chudnovskyInts 6 1).map Prod.fst
      = .ok ((-1) ^ 1 * ((6 * 1).factorial : Int) * (545140134 * ((1 : Nat) : Int) + 13591409)) :=
  ⟨by decide, (chudnovsky_numerator 6 1 (by decide)).1⟩

/-- C3: for every term index `k`, the integer `denominatorPart1` that `chudnovsky` holds before
the float conversion is exactly `640320^(3k+1) * (k!)^3 * (3k)!`, that is
`(640320^3)^k * 640320 * (k!)^3 * (3k)!`, and the decimal literal `262537412640768000` of the
code is exactly `640320^3`. -/
theorem chudnovsky_denominator (fuel k : Nat) (h : 6 * k ≤ fuel) :
    (chudnovskyInts fuel k).map Prod.snd =
        .ok ((640320 : Int) ^ (3 * k + 1) * ((k.factorial : Int)) ^ 3
              * ((3 * k).factorial : Int)) ∧
    (chudnovskyInts fuel k).map Prod.snd =
        .ok (((640320 : Int) ^ 3) ^ k * 640320 * ((k.factorial : Int)) ^ 3
              * ((3 * k).factorial : Int)) ∧
    token6403Pow3 = (640320 : Int) ^ 3 ∧ token6403 = 640320 := by
  have hlit : (262537412640768000 : Int) = (640320 : Int) ^ 3 := by norm_num
  refine ⟨?_, ?_, ?_, rfl⟩
  · rw [chudnovskyInts_eq fuel k h, hlit]
    have hp : ((640320 : Int) ^ 3) ^ k * 640320 = (640320 : Int) ^ (3 * k + 1) := by
      rw [← pow_mul, ← pow_succ]
    show Except.ok (((640320 : Int) ^ 3) ^ k * 640320 * _ * _) = Except.ok _
    rw [hp]
  · rw [chudnovskyInts_eq fuel k h, hlit]
    rfl
  · unfold token6403Pow3
    norm_num

/-- Witness for C3 at `k = 2`. -/
theorem chudnovsky_denominator_witness :
    6 * 2 ≤ 12 ∧ (chudnovskyInts 12 2).map Prod.snd
      = .ok ((640320 : Int) ^ (3 * 2 + 1) * (((2 : Nat).factorial : Int)) ^ 3
              * ((3 * 2).factorial : Int)) :=
  ⟨by decide, (chudnovsky_denominator 12 2 (by decide)).1⟩

/-- The square root of `640320` is positive. -/
theorem sqrt6403_pos : 0 < Real.sqrt 640320 := Real.sqrt_pos.mpr (by norm_num)

/-- In exact real arithmetic `chudnovsky` returns the term of the specification. -/
theorem chudnovsky_real (fuel precision k : Nat) (h : 6 * k ≤ fuel) :
    chudnovsky ℝ Real.sqrt fuel precision k = .ok (specTerm ℝ Real.sqrt k) := by
  have hs : Real.sqrt 640320 ≠ 0 := sqrt6403_pos.ne.symm
  have hden : (((262537412640768000 : Int) ^ k * 640320 * ((k.factorial : Int)) ^ 3
      * ((3 * k).factorial : Int) : Int) : ℝ) ≠ 0 := by
    have h1 : ((k.factorial : Int) : ℝ) ≠ 0 := by exact_mod_cast k.factorial_ne_zero
    have h3 : (((3 * k).factorial : Int) : ℝ) ≠ 0 := by
      exact_mod_cast (3 * k).factorial_ne_zero
    push_cast
    positivity
  unfold chudnovsky
  rw [chudnovskyInts_eq fuel k h]
  simp only [mpf_div, Nat.cast_ofNat, hs, if_false, bind, Except.bind, hden, pure, Except.pure,
    zero_add]
  congr 1
  rw [tokenNeg1PowK_eq]
  unfold specTerm
  have hlit : (262537412640768000 : ℝ) = (640320 : ℝ) ^ 3 := by norm_num
  push_cast
  rw [hlit]
  field_simp
  ring

/-- A finite alternating sum that starts with a positive term and whose terms strictly
decrease in magnitude is positive. -/
theorem alternating_sum_pos (a : ℕ → ℝ) (hpos : ∀ k, 0 < a k) (hdec : ∀ k, a (k + 1) < a k)
    (n : ℕ) (hn : 1 ≤ n) : 0 < ∑ k in Finset.range n, (-1) ^ k * a k := by
  have key : ∀ m : ℕ,
      (0 ≤ ∑ k in Finset.range (2 * m), (-1) ^ k * a k) ∧
      (a (2 * m) ≤ ∑ k in Finset.range (2 * m + 1), (-1) ^ k * a k) := by
    intro m
    induction m with
    | zero => simp
    | succ m ih =>
      have e1 : ∑ k in Finset.range (2 * (m + 1)), (-1) ^ k * a k
          = (∑ k in Finset.range (2 * m + 1), (-1) ^ k * a k) - a (2 * m + 1) := by
        rw [show 2 * (m + 1) = (2 * m + 1) + 1 by ring, Finset.sum_range_succ]
        have : ((-1 : ℝ)) ^ (2 * m + 1) = -1 := by
          rw [pow_succ, pow_mul]; norm_num
        rw [this]; ring
      have e2 : ∑ k in Finset.range (2 * (m + 1) + 1), (-1) ^ k * a k
          = (∑ k in Finset.range (2 * (m + 1)), (-1) ^ k * a k) + a (2 * (m + 1)) := by
        rw [Finset.sum_range_succ]
        have : ((-1 : ℝ)) ^ (2 * (m + 1)) = 1 := by
          rw [pow_mul]; norm_num
        rw [this]; ring
      have hd := hdec (2 * m)
      constructor
      · rw [e1]; linarith [ih.2]
      · rw [e2, e1]; linarith [ih.2]
  rcases Nat.even_or_odd n with he | ho
  · obtain ⟨m, hm⟩ := he
    have hm1 : 1 ≤ m := by omega
    obtain ⟨j, rfl⟩ : ∃ j, m = j + 1 := ⟨m - 1, by omega⟩
    have e1 : ∑ k in Finset.range n, (-1) ^ k * a k
        = (∑ k in Finset.range (2 * j + 1), (-1) ^ k * a k) - a (2 * j + 1) := by
      rw [hm, show j + 1 + (j + 1) = (2 * j + 1) + 1 by ring, Finset.sum_range_succ]
      have : ((-1 : ℝ)) ^ (2 * j + 1) = -1 := by
        rw [pow_succ, pow_mul]; norm_num
      rw [this]; ring
    rw [e1]
    linarith [(key j).2, hdec (2 * j)]
  · obtain ⟨m, hm⟩ := ho
    rw [hm]
    linarith [(key m).2, hpos (2 * m)]

/-- The term of the specification is its magnitude with the alternating sign. -/
theorem specTerm_eq_sign_mul (k : ℕ) :
    specTerm ℝ Real.sqrt k = (-1) ^ k * specTermAbs ℝ Real.sqrt k := by
  unfold specTerm specTermAbs
  ring

/-- The magnitude of every term is positive. -/
theorem specTermAbs_pos (k : ℕ) : 0 < specTermAbs ℝ Real.sqrt k := by
  unfold specTermAbs
  have hs := sqrt6403_pos
  have h6 : (0 : ℝ) < ((6 * k).factorial : ℝ) := by exact_mod_cast (6 * k).factorial_pos
  have h3 : (0 : ℝ) < ((3 * k).factorial : ℝ) := by exact_mod_cast (3 * k).factorial_pos
  have h1 : (0 : ℝ) < (k.factorial : ℝ) := by exact_mod_cast k.factorial_pos
  positivity

/-- The magnitudes of the terms strictly decrease. -/
theorem specTermAbs_succ_lt (k : ℕ) :
    specTermAbs ℝ Real.sqrt (k + 1) < specTermAbs ℝ Real.sqrt k := by
  unfold specTermAbs
  have hs := sqrt6403_pos
  have h6 : (0 : ℝ) < ((6 * k).factorial : ℝ) := by exact_mod_cast (6 * k).factorial_pos
  have h3 : (0 : ℝ) < ((3 * k).factorial : ℝ) := by exact_mod_cast (3 * k).factorial_pos
  have h1 : (0 : ℝ) < (k.factorial : ℝ) := by exact_mod_cast k.factorial_pos
  have hk : (0 : ℝ) ≤ (k : ℝ) := Nat.cast_nonneg k
  have e6 : (((6 * (k + 1)).factorial : ℕ) : ℝ)
      = (6 * k + 6) * (6 * k + 5) * (6 * k + 4) * (6 * k + 3) * (6 * k + 2) * (6 * k + 1)
          * ((6 * k).factorial : ℝ) := by
    rw [show 6 * (k + 1) = 6 * k + 1 + 1 + 1 + 1 + 1 + 1 by ring]
    simp only [Nat.factorial_succ]
    push_cast
    ring
  have e3 : (((3 * (k + 1)).factorial : ℕ) : ℝ)
      = (3 * k + 3) * (3 * k + 2) * (3 * k + 1) * ((3 * k).factorial : ℝ) := by
    rw [show 3 * (k + 1) = 3 * k + 1 + 1 + 1 by ring]
    simp only [Nat.factorial_succ]
    push_cast
    ring
  have e1 : (((k + 1).factorial : ℕ) : ℝ) = (k + 1) * (k.factorial : ℝ) := by
    rw [Nat.factorial_succ]
    push_cast
    ring
  rw [e6, e3, e1]
  have hC : (0 : ℝ) < ((640320 : ℝ) ^ 3) ^ k := by positivity
  rw [div_lt_div_iff₀ (by positivity) (by positivity)]
  set f6 : ℝ := ((6 * k).factorial : ℝ)
  set f3 : ℝ := ((3 * k).factorial : ℝ)
  set f1 : ℝ := (k.factorial : ℝ)
  set Ck : ℝ := ((640320 : ℝ) ^ 3) ^ k
  set s : ℝ := Real.sqrt 640320
  have hG : 0 < f6 * f3 * f1 ^ 3 * Ck * 640320 * s := by positivity
  have hpoly :
      (6 * (k : ℝ) + 6) * (6 * k + 5) * (6 * k + 4) * (6 * k + 3) * (6 * k + 2) * (6 * k + 1)
          * (545140134 * ((k : ℝ) + 1) + 13591409)
        < (545140134 * (k : ℝ) + 13591409) * ((3 * k + 3) * (3 * k + 2) * (3 * k + 1))
          * ((k : ℝ) + 1) ^ 3 * (640320 : ℝ) ^ 3 := by
    nlinarith [pow_nonneg hk 2, pow_nonneg hk 3, pow_nonneg hk 4, pow_nonneg hk 5,
      pow_nonneg hk 6, pow_nonneg hk 7]
  have := mul_lt_mul_of_pos_left hpoly hG
  push_cast
  rw [pow_succ]
  calc _ = f6 * f3 * f1 ^ 3 * Ck * 640320 * s *
          ((6 * (k : ℝ) + 6) * (6 * k + 5) * (6 * k + 4) * (6 * k + 3) * (6 * k + 2) * (6 * k + 1)
          * (545140134 * ((k : ℝ) + 1) + 13591409)) := by ring
    _ < f6 * f3 * f1 ^ 3 * Ck * 640320 * s *
          ((545140134 * (k : ℝ) + 13591409) * ((3 * k + 3) * (3 * k + 2) * (3 * k + 1))
          * ((k : ℝ) + 1) ^ 3 * (640320 : ℝ) ^ 3) := this
    _ = _ := by ring

/-- For at least one iteration the partial sum of the series is positive. -/
theorem specTerm_sum_pos (n : ℕ) (hn : 1 ≤ n) :
    0 < ∑ k in Finset.range n, specTerm ℝ Real.sqrt k := by
  have := alternating_sum_pos (fun k => specTermAbs ℝ Real.sqrt k) specTermAbs_pos
    specTermAbs_succ_lt n hn
  simpa only [specTerm_eq_sign_mul] using this

/-- The loop of `calculatePi` in exact real arithmetic: whatever the order, the accumulator
grows by the terms of the indices handed out. -/
theorem calculatePi_loop_real (fuel precision : ℕ) :
    ∀ (order : List ℕ) (pi0 : ℝ), (∀ i ∈ order, 6 * i ≤ fuel) →
      calculatePi_loop ℝ Real.sqrt fuel precision order pi0
        = .ok (pi0 + (order.map (specTerm ℝ Real.sqrt)).sum) := by
  intro order
  induction order with
  | nil => intro pi0 _; simp [calculatePi_loop]
  | cons i rest ih =>
    intro pi0 h
    have hi := chudnovsky_real fuel precision i (h i (List.mem_cons_self i rest))
    have hrest := ih (pi0 + specTerm ℝ Real.sqrt i)
      (fun j hj => h j (List.mem_cons_of_mem i hj))
    simp only [calculatePi_loop, hi, bind, Except.bind, hrest, List.map_cons, List.sum_cons]
    congr 1
    ring

/-- Summing a function over `List.range n` is the finite sum over the index range. -/
theorem sum_map_range (f : ℕ → ℝ) (n : ℕ) :
    ((List.range n).map f).sum = ∑ k in Finset.range n, f k := by
  induction n with
  | zero => simp
  | succ n ih => simp [List.range_succ, Finset.sum_range_succ, ih]

/-- The loop of `calculatePi` over any schedule of the index range `[0, n)` accumulates the sum
of the series terms. -/
theorem calculatePi_loop_perm (fuel precision n : ℕ) (order : List ℕ) (pi0 : ℝ)
    (hfuel : 6 * n ≤ fuel) (hperm : order.Perm (List.range n)) :
    calculatePi_loop ℝ Real.sqrt fuel precision order pi0
      = .ok (pi0 + ∑ k in Finset.range n, specTerm ℝ Real.sqrt k) := by
  have hmem : ∀ i ∈ order, 6 * i ≤ fuel := by
    intro i hi
    have : i < n := List.mem_range.mp (hperm.mem_iff.mp hi)
    omega
  rw [calculatePi_loop_real fuel precision order pi0 hmem,
    (hperm.map (specTerm ℝ Real.sqrt)).sum_eq, sum_map_range]

/-- With no iteration the loop leaves the accumulator untouched and the final transform divides
by zero, in every field and for every schedule of the empty range. -/
theorem calculatePi_no_iteration {F : Type} [Field F] [DecidableEq F] (fsqrt : F → F)
    (fuel : ℕ) (sched : List ℕ → List ℕ) (numThreads precision : ℕ)
    (hperm : (sched (List.range 0)).Perm (List.range 0)) :
    calculatePi F fsqrt fuel sched 0 numThreads 0 precision = .error .divByZero := by
  have hnil : sched [] = [] := by
    simpa using hperm
  simp [calculatePi, hnil, calculatePi_loop, mpf_div, bind, Except.bind]

/-- C4: with the float operations idealised as exact real arithmetic and the accumulator
starting at zero, for every `numIterations = n ≥ 1` (any thread count, any precision, any
schedule of the index range) `calculatePi` leaves in `pi` the value `1 / (12 * S)`, where `S`
is the sum of `term(k)` for `k` in `[0, n)`. -/
theorem calculatePi_value (fuel numThreads n precision : ℕ) (sched : List ℕ → List ℕ)
    (hn : 1 ≤ n) (hfuel : 6 * n ≤ fuel)
    (hperm : (sched (List.range n)).Perm (List.range n)) :
    calculatePi ℝ Real.sqrt fuel sched 0 numThreads n precision
      = .ok (1 / (12 * ∑ k in Finset.range n, specTerm ℝ Real.sqrt k)) := by
  have hpos := specTerm_sum_pos n hn
  have hne : (∑ k in Finset.range n, specTerm ℝ Real.sqrt k) ≠ 0 := hpos.ne.symm
  unfold calculatePi
  rw [calculatePi_loop_perm fuel precision n _ 0 hfuel hperm]
  simp only [bind, Except.bind, mpf_div, zero_add, Nat.cast_ofNat, mul_eq_zero, hne,
    OfNat.ofNat_ne_zero, or_self, if_false]
  congr 1
  ring

/-- Witness for C4: three iterations handed out in reverse order. -/
theorem calculatePi_value_witness :
    1 ≤ 3 ∧ 6 * 3 ≤ 18 ∧ (List.reverse (List.range 3)).Perm (List.range 3) ∧
    calculatePi ℝ Real.sqrt 18 List.reverse 0 4 3 64
      = .ok (1 / (12 * ∑ k in Finset.range 3, specTerm ℝ Real.sqrt k)) :=
  ⟨by decide, by decide, List.reverse_perm _,
    calculatePi_value 18 4 3 64 List.reverse (by decide) (by decide) (List.reverse_perm _)⟩

/-- C5: with the parallel loop modelled as a fold of `term(0), ..., term(n-1)` into the
accumulator in an arbitrary order (any permutation of `[0, n)`, for any number of threads) and
exact additions, the accumulated sum is the sum of `term(k)` over the whole index range for
every order, and so two runs under different schedules give the same result `pi`. -/
theorem calculatePi_fold_order (fuel n precision threads1 threads2 : ℕ)
    (sched1 sched2 : List ℕ → List ℕ) (hfuel : 6 * n ≤ fuel)
    (h1 : (sched1 (List.range n)).Perm (List.range n))
    (h2 : (sched2 (List.range n)).Perm (List.range n)) :
    calculatePi_loop ℝ Real.sqrt fuel precision (sched1 (List.range n)) 0
      = .ok (∑ k in Finset.range n, specTerm ℝ Real.sqrt k) ∧
    calculatePi_loop ℝ Real.sqrt fuel precision (sched2 (List.range n)) 0
      = calculatePi_loop ℝ Real.sqrt fuel precision (sched1 (List.range n)) 0 ∧
    calculatePi ℝ Real.sqrt fuel sched2 0 threads2 n precision
      = calculatePi ℝ Real.sqrt fuel sched1 0 threads1 n precision := by
  have e1 := calculatePi_loop_perm fuel precision n _ 0 hfuel h1
  have e2 := calculatePi_loop_perm fuel precision n _ 0 hfuel h2
  rw [zero_add] at e1 e2
  refine ⟨e1, by rw [e1, e2], ?_⟩
  unfold calculatePi
  rw [e1, e2]

/-- Witness for C5: four iterations, in order on one thread and reversed on eight. -/
theorem calculatePi_fold_order_witness :
    6 * 4 ≤ 24 ∧ (id (List.range 4)).Perm (List.range 4) ∧
    (List.reverse (List.range 4)).Perm (List.range 4) ∧
    calculatePi ℝ Real.sqrt 24 List.reverse 0 8 4 64
      = calculatePi ℝ Real.sqrt 24 id 0 1 4 64 :=
  ⟨by decide, List.Perm.refl _, List.reverse_perm _,
    (calculatePi_fold_order 24 4 64 1 8 id List.reverse (by decide) (List.Perm.refl _)
      (List.reverse_perm _)).2.2⟩

/-- C8 refuted as stated: the run with four threads, zero iterations and eight bytes of
precision is not rejected; it reaches the final transform with a sum of zero terms and takes
the reciprocal of zero. -/
theorem main_zero_iterations_divides_by_zero :
    main_calculate ℝ Real.sqrt 0 id 4 0 8 = .error .divByZero := by
  unfold main_calculate
  exact calculatePi_no_iteration Real.sqrt 0 id _ _ (List.Perm.refl _)

/-- C8 as amended: `main` performs no check of the iteration count; whatever the thread count
and the precision, a run with `numIterations = 0` enters `calculatePi`, executes no loop
iteration and faults in the final transform on the reciprocal of a zero sum. -/
theorem main_zero_iterations (F : Type) [Field F] [DecidableEq F] (fsqrt : F → F) (fuel : ℕ)
    (sched : List ℕ → List ℕ) (argThreads argPrecision : Int)
    (hperm : (sched (List.range 0)).Perm (List.range 0)) :
    toUnsignedLong 0 = 0 ∧
    main_calculate F fsqrt fuel sched argThreads 0 argPrecision = .error .divByZero := by
  refine ⟨rfl, ?_⟩
  unfold main_calculate
  exact calculatePi_no_iteration fsqrt fuel sched _ _ hperm

/-- Witness for C8 as amended, over the rationals with a placeholder square root. -/
theorem main_zero_iterations_witness :
    (id (List.range 0)).Perm (List.range 0) ∧
    main_calculate ℚ id 0 id 4 0 8 = .error .divByZero :=
  ⟨List.Perm.refl _, (main_zero_iterations ℚ id 0 id 4 8 (List.Perm.refl _)).2⟩

/-- One iteration: `calculatePi` returns `640320 * sqrt(640320) / (12 * 13591409)`, for every
fuel, thread count and precision. -/
theorem calculatePi_one_iteration (fuel numThreads precision : ℕ) (sched : List ℕ → List ℕ)
    (hperm : (sched (List.range 1)).Perm (List.range 1)) :
    calculatePi ℝ Real.sqrt fuel sched 0 numThreads 1 precision
      = .ok (640320 * Real.sqrt 640320 / (12 * 13591409)) := by
  have hs : sched (List.range 1) = [0] := by
    have : (sched (List.range 1)).Perm [0] := hperm
    exact List.perm_singleton.mp this
  have hpos := sqrt6403_pos
  have hterm : specTerm ℝ Real.sqrt 0 = 13591409 / (640320 * Real.sqrt 640320) := by
    unfold specTerm
    simp
  have hloop := calculatePi_loop_real fuel precision [0] 0 (by simp)
  have hne : (13591409 / (640320 * Real.sqrt 640320) : ℝ) ≠ 0 := by positivity
  unfold calculatePi
  rw [hs, hloop]
  simp only [List.map_cons, List.map_nil, List.sum_cons, List.sum_nil, hterm, bind, Except.bind,
    mpf_div, zero_add, add_zero, Nat.cast_ofNat, mul_eq_zero, hne, OfNat.ofNat_ne_zero,
    or_self, if_false]
  congr 1
  field_simp
  ring

/-- Rational bounds on the one-term value `640320 * sqrt(640320) / 163096908`. -/
theorem one_term_bounds :
    (3.1415926535897342 : ℝ) < 640320 * Real.sqrt 640320 / (12 * 13591409) ∧
    640320 * Real.sqrt 640320 / (12 * 13591409) < (3.1415926535897343 : ℝ) := by
  have hlo : (800.19997500624804755 : ℝ) < Real.sqrt 640320 :=
    (Real.lt_sqrt (by norm_num)).mpr (by norm_num)
  have hhi : Real.sqrt 640320 < (800.19997500624804756 : ℝ) :=
    (Real.sqrt_lt' (by norm_num)).mpr (by norm_num)
  constructor
  · rw [lt_div_iff₀ (by norm_num)]
    linarith
  · rw [div_lt_iff₀ (by norm_num)]
    linarith

/-- C6 refuted as stated: the value produced for `numIterations = 1` (four threads, 64 bits)
does not have `3.14159265358979` as its first fourteen decimals. -/
theorem one_iteration_decimals_not_979 :
    ¬ ∃ x : ℝ, calculatePi ℝ Real.sqrt 0 id 0 4 1 64 = .ok x ∧
        ⌊x * 10 ^ 14⌋ = 314159265358979 := by
  rintro ⟨x, hx, hfl⟩
  rw [calculatePi_one_iteration 0 4 64 id (List.Perm.refl _)] at hx
  have hx2 : 640320 * Real.sqrt 640320 / (12 * 13591409) = x := by
    injection hx
  have hb := one_term_bounds.2
  rw [hx2] at hb
  have := (Int.floor_eq_iff.mp hfl).1
  push_cast at this
  linarith

/-- C6 as amended: for `numIterations = 1` (any thread count, any precision, any fuel) the value
that `calculatePi` produces, `640320 * sqrt(640320) / (12 * 13591409)`, has the decimal
expansion beginning `3.14159265358973`: its first fourteen decimals are `14159265358973`. -/
theorem one_iteration_decimals (fuel numThreads precision : ℕ) (sched : List ℕ → List ℕ)
    (hperm : (sched (List.range 1)).Perm (List.range 1)) :
    ∃ x : ℝ, calculatePi ℝ Real.sqrt fuel sched 0 numThreads 1 precision = .ok x ∧
      x = 640320 * Real.sqrt 640320 / (12 * 13591409) ∧
      ⌊x * 10 ^ 14⌋ = 314159265358973 := by
  refine ⟨_, calculatePi_one_iteration fuel numThreads precision sched hperm, rfl, ?_⟩
  obtain ⟨hlo, hhi⟩ := one_term_bounds
  rw [Int.floor_eq_iff]
  push_cast
  constructor <;> linarith

/-- Witness for C6 as amended: four threads, 64 bits of precision, no fuel. -/
theorem one_iteration_decimals_witness :
    (id (List.range 1)).Perm (List.range 1) ∧
    ∃ x : ℝ, calculatePi ℝ Real.sqrt 0 id 0 4 1 64 = .ok x ∧
      x = 640320 * Real.sqrt 640320 / (12 * 13591409) ∧
      ⌊x * 10 ^ 14⌋ = 314159265358973 :=
  ⟨List.Perm.refl _, one_iteration_decimals 0 4 64 id (List.Perm.refl _)⟩

/-- C7: the single term `k = 0`, summed and transformed (times twelve, then reciprocal),
gives `640320 * sqrt(640320) / 163096908`, which in exact real arithmetic differs from the
constant pi by less than `10^-13`. -/
theorem one_iteration_close_to_pi (fuel numThreads precision : ℕ) (sched : List ℕ → List ℕ)
    (hperm : (sched (List.range 1)).Perm (List.range 1)) :
    ∃ x : ℝ, calculatePi ℝ Real.sqrt fuel sched 0 numThreads 1 precision = .ok x ∧
      x = 640320 * Real.sqrt 640320 / 163096908 ∧
      |x - Real.pi| < 1 / 10 ^ 13 := by
  refine ⟨_, calculatePi_one_iteration fuel numThreads precision sched hperm, by norm_num, ?_⟩
  obtain ⟨hlo, hhi⟩ := one_term_bounds
  have hpl := Real.pi_gt_d20
  have hpu := Real.pi_lt_d20
  rw [abs_lt]
  constructor
  · norm_num at hlo hpu ⊢
    linarith
  · norm_num at hhi hpl ⊢
    linarith

/-- Witness for C7: one thread, 64 bits of precision. -/
theorem one_iteration_close_to_pi_witness :
    (id (List.range 1)).Perm (List.range 1) ∧
    ∃ x : ℝ, calculatePi ℝ Real.sqrt 0 id 0 1 1 64 = .ok x ∧
      x = 640320 * Real.sqrt 640320 / 163096908 ∧
      |x - Real.pi| < 1 / 10 ^ 13 :=
  ⟨List.Perm.refl _, one_iteration_close_to_pi 0 1 64 id (List.Perm.refl _)⟩

/-- The stopping index never exceeds the length of the computed string. -/
theorem commonPrefixLength_le (S R : List Char) : commonPrefixLength S R ≤ S.length := by
  induction S generalizing R with
  | nil => simp [commonPrefixLength]
  | cons c s ih =>
    cases R with
    | nil => simp [commonPrefixLength]
    | cons d r =>
      simp only [commonPrefixLength, List.length_cons]
      split
      · have := ih r
        omega
      · omega

/-- The exit value of `curPos`: the stopping index when the scan stops inside the computed
string, and the index of its last character when the scan runs through it. -/
theorem verifier_loop_eq (S R : List Char) (i curPos : Int) :
    verifier_loop S R i curPos =
      if commonPrefixLength S R < S.length then i + commonPrefixLength S R
      else if S = [] then curPos else i + S.length - 1 := by
  induction S generalizing R i curPos with
  | nil => simp [verifier_loop, commonPrefixLength]
  | cons c s ih =>
    cases R with
    | nil => simp [verifier_loop, fgetc, commonPrefixLength]
    | cons d r =>
      by_cases hcd : c = d
      · subst hcd
        have hle := commonPrefixLength_le s r
        simp only [verifier_loop, fgetc, commonPrefixLength, ne_eq, not_true_eq_false,
          if_false, if_true, ih r (i + 1) i, List.length_cons, Nat.add_lt_add_iff_right]
        by_cases hlt : commonPrefixLength s r < s.length
        · simp only [hlt, if_true]
          push_cast
          ring
        · have hs : commonPrefixLength s r = s.length := by omega
          simp only [hlt, if_false, reduceCtorEq]
          by_cases hnil : s = []
          · subst hnil
            simp
          · simp only [hnil, if_false]
            push_cast
            ring
      · simp [verifier_loop, fgetc, commonPrefixLength, hcd]

/-- The reported accuracy in closed form. -/
theorem verifier_accuracy_eq (S R : List Char) :
    verifier_accuracy S R =
      if commonPrefixLength S R < S.length then (commonPrefixLength S R : Int) - 1
      else if S = [] then -1 else (S.length : Int) - 2 := by
  unfold verifier_accuracy
  simp only [verifier_loop_eq]
  split
  · ring
  · split
    · ring
    · ring

/-- C9 at the failing input: for the computed string `3.14159` and a reference beginning
`3.14159265` the scan ends at index `7` (the end of the computed string), so the claim asks for
accuracy `6`, while the loop exits with `curPos = 6` and the code reports `5`. -/
theorem verifier_full_match_reports_five :
    commonPrefixLength "3.14159".toList "3.14159265".toList = 7 ∧
    verifier_loop "3.14159".toList "3.14159265".toList 0 0 = 6 ∧
    verifier_accuracy "3.14159".toList "3.14159265".toList = 5 := by
  decide

/-- C10 refuted as stated: for the computed string `3.14158` and a reference beginning
`3.14159265` six leading characters match, yet the reported accuracy is `5`, not `6`. -/
theorem verifier_mismatch_reports_five :
    commonPrefixLength "3.14158".toList "3.14159265".toList = 6 ∧
    verifier_accuracy "3.14158".toList "3.14159265".toList = 5 ∧
    verifier_accuracy "3.14158".toList "3.14159265".toList
      ≠ (commonPrefixLength "3.14158".toList "3.14159265".toList : Int) := by
  decide

/-- C10 as amended: for every computed string `S` and every reference `R` at least as long as
`S`, when `S` differs from `R` at some position the reported accuracy is the number of leading
characters of `S` that match `R` minus one; it is `5` for `3.14158` against a reference
beginning `3.14159265`, whose first mismatch is the seventh character. -/
theorem verifier_accuracy_mismatch (S R : List Char) (hlen : S.length ≤ R.length)
    (hdiff : commonPrefixLength S R < S.length) :
    verifier_accuracy S R = (commonPrefixLength S R : Int) - 1 ∧
    verifier_accuracy "3.14158".toList "3.14159265".toList = 5 := by
  refine ⟨?_, by decide⟩
  rw [verifier_accuracy_eq, if_pos hdiff]

/-- Witness for C10 as amended: the string `3.14158` of the specification. -/
theorem verifier_accuracy_mismatch_witness :
    "3.14158".toList.length ≤ "3.14159265".toList.length ∧
    commonPrefixLength "3.14158".toList "3.14159265".toList < "3.14158".toList.length ∧
    verifier_accuracy "3.14158".toList "3.14159265".toList
      = (commonPrefixLength "3.14158".toList "3.14159265".toList : Int) - 1 :=
  ⟨by decide, by decide,
    (verifier_accuracy_mismatch "3.14158".toList "3.14159265".toList (by decide)
      (by decide)).1⟩

/-- C11 at the failing input: ten iterations over a communicator of four processes (three
workers).  The claim asks for the workloads `3, 3, 4`, which sum to ten; the code adds the
leftover at rank `commSize - 2` and keeps it for the last rank, sending `3, 4, 4`, which sum
to eleven. -/
theorem coordinator_sends_ten_over_three :
    coordinator_sends 10 4 = .ok [(1, 3), (2, 4), (3, 4)] ∧
    specWorkloads 10 4 = [(1, 3), (2, 3), (3, 4)] ∧
    (coordinator_sends 10 4).map (fun sends => (sends.map Prod.snd).sum) = .ok 11 := by
  refine ⟨?_, ?_, ?_⟩
  · rfl
  · decide
  · rfl

/-- C12: for every `numIterations = n ≥ 1`, in exact real arithmetic the sum of `term(k)` over
`[0, n)` is strictly positive: the terms alternate in sign, start positive at `k = 0` and
strictly decrease in magnitude.  Hence the loop of `calculatePi` ends with a positive sum and
the final transform `1 / (12 * sum)` does not divide by zero. -/
theorem series_sum_positive (fuel numThreads n precision : ℕ) (sched : List ℕ → List ℕ)
    (hn : 1 ≤ n) (hfuel : 6 * n ≤ fuel)
    (hperm : (sched (List.range n)).Perm (List.range n)) :
    0 < ∑ k in Finset.range n, specTerm ℝ Real.sqrt k ∧
    0 < specTerm ℝ Real.sqrt 0 ∧
    (∀ k, specTerm ℝ Real.sqrt k = (-1) ^ k * specTermAbs ℝ Real.sqrt k ∧
      0 < specTermAbs ℝ Real.sqrt k ∧
      specTermAbs ℝ Real.sqrt (k + 1) < specTermAbs ℝ Real.sqrt k) ∧
    (∃ sum : ℝ, calculatePi_loop ℝ Real.sqrt fuel precision (sched (List.range n)) 0 = .ok sum ∧
      0 < sum ∧ sum * 12 ≠ 0) ∧
    calculatePi ℝ Real.sqrt fuel sched 0 numThreads n precision ≠ .error .divByZero := by
  have hpos := specTerm_sum_pos n hn
  have hloop := calculatePi_loop_perm fuel precision n _ 0 hfuel hperm
  rw [zero_add] at hloop
  refine ⟨hpos, ?_, ?_, ⟨_, hloop, hpos, ?_⟩, ?_⟩
  · rw [specTerm_eq_sign_mul]
    simpa using specTermAbs_pos 0
  · intro k
    exact ⟨specTerm_eq_sign_mul k, specTermAbs_pos k, specTermAbs_succ_lt k⟩
  · exact mul_ne_zero hpos.ne.symm (by norm_num)
  · unfold calculatePi
    rw [hloop]
    have hne : (∑ k in Finset.range n, specTerm ℝ Real.sqrt k) ≠ 0 := hpos.ne.symm
    simp [bind, Except.bind, mpf_div, hne]

/-- Witness for C12: two iterations on two threads. -/
theorem series_sum_positive_witness :
    1 ≤ 2 ∧ 6 * 2 ≤ 12 ∧ (id (List.range 2)).Perm (List.range 2) ∧
    0 < ∑ k in Finset.range 2, specTerm ℝ Real.sqrt k ∧
    calculatePi ℝ Real.sqrt 12 id 0 2 2 64 ≠ .error .divByZero :=
  ⟨by decide, by decide, List.Perm.refl _,
    (series_sum_positive 12 2 2 64 id (by decide) (by decide) (List.Perm.refl _)).1,
    (series_sum_positive 12 2 2 64 id (by decide) (by decide) (List.Perm.refl _)).2.2.2.2⟩

/-- C13: for every term index `k` the integer `denominatorPart1` computed by `chudnovsky` is
at least `640320`, hence strictly positive, so its float conversion is not zero and the large
division `numerator / denominator` does not divide by zero. -/
theorem chudnovsky_denominator_positive (fuel precision k : ℕ) (h : 6 * k ≤ fuel) :
    (∃ d : Int, (chudnovskyInts fuel k).map Prod.snd = .ok d ∧ 640320 ≤ d ∧ 0 < d ∧
      mpf_div (1 : ℝ) (d : ℝ) ≠ .error .divByZero) ∧
    chudnovsky ℝ Real.sqrt fuel precision k ≠ .error .divByZero := by
  have hd : (640320 : Int) ≤ (262537412640768000 : Int) ^ k * 640320 * ((k.factorial : Int)) ^ 3
      * ((3 * k).factorial : Int) := by
    have h1 : (1 : Int) ≤ (262537412640768000 : Int) ^ k := one_le_pow₀ (by norm_num)
    have h2 : (1 : Int) ≤ ((k.factorial : Int)) ^ 3 :=
      one_le_pow₀ (by exact_mod_cast k.factorial_pos)
    have h3 : (1 : Int) ≤ ((3 * k).factorial : Int) := by
      exact_mod_cast (3 * k).factorial_pos
    have e1 : (640320 : Int) ≤ (262537412640768000 : Int) ^ k * 640320 := by nlinarith
    have e2 : (262537412640768000 : Int) ^ k * 640320
        ≤ (262537412640768000 : Int) ^ k * 640320 * ((k.factorial : Int)) ^ 3 := by nlinarith
    have e3 : (262537412640768000 : Int) ^ k * 640320 * ((k.factorial : Int)) ^ 3
        ≤ (262537412640768000 : Int) ^ k * 640320 * ((k.factorial : Int)) ^ 3
          * ((3 * k).factorial : Int) := by nlinarith
    linarith
  refine ⟨⟨_, ?_, hd, by linarith, ?_⟩, ?_⟩
  · rw [chudnovskyInts_eq fuel k h]
    rfl
  · have hne : (((262537412640768000 : Int) ^ k * 640320 * ((k.factorial : Int)) ^ 3
        * ((3 * k).factorial : Int) : Int) : ℝ) ≠ 0 := by
      have : (0 : Int) < (262537412640768000 : Int) ^ k * 640320 * ((k.factorial : Int)) ^ 3
        * ((3 * k).factorial : Int) := by linarith
      exact_mod_cast this.ne.symm
    simp only [mpf_div, hne, if_false]
    exact fun hc => by cases hc
  · rw [chudnovsky_real fuel precision k h]
    exact fun hc => by cases hc

/-- Witness for C13 at `k = 1`. -/
theorem chudnovsky_denominator_positive_witness :
    6 * 1 ≤ 6 ∧ chudnovsky ℝ Real.sqrt 6 64 1 ≠ .error .divByZero :=
  ⟨by decide, (chudnovsky_denominator_positive 6 64 1 (by decide)).2⟩

/-- The state of the loop of `mpz_fact` after `j ≤ n` iterations from `m = n`: the counter is
`n - j` and the accumulator has been multiplied by `n (n-1) ... (n-j+1)`. -/
theorem mpz_fact_loop_steps (j : ℕ) :
    ∀ (n fuel : ℕ) (result : Int), j ≤ n →
      mpz_fact_loop (fuel + j) result (n : Int)
        = mpz_fact_loop fuel (result * (n.descFactorial j : Int)) ((n : Int) - j) := by
  induction j with
  | zero =>
    intro n fuel result _
    simp
  | succ j ih =>
    intro n fuel result h
    obtain ⟨n', rfl⟩ : ∃ n', n = n' + 1 := ⟨n - 1, by omega⟩
    have hne : ((n' : Int) + 1 = 0) ↔ False := by
      constructor
      · intro h0
        omega
      · intro h0
        exact h0.elim
    have key := ih n' fuel (result * ((n' : Int) + 1)) (by omega)
    rw [show fuel + (j + 1) = (fuel + j) + 1 by ring]
    simp only [mpz_fact_loop, Nat.cast_succ, hne, if_false, add_sub_cancel_right, key,
      Nat.succ_descFactorial_succ]
    congr 1
    · push_cast
      ring
    · ring

/-- With fewer than `n` units of fuel the loop started at `m = n` is cut short. -/
theorem mpz_fact_loop_short (n fuel : ℕ) (result : Int) (h : fuel < n) :
    mpz_fact_loop fuel result (n : Int) = .error .outOfFuel := by
  have key := mpz_fact_loop_steps fuel n 0 result (by omega)
  rw [zero_add] at key
  rw [key]
  have hne : ((n : Int) - (fuel : Int) = 0) ↔ False := by
    constructor
    · intro h0
      omega
    · intro h0
      exact h0.elim
  simp only [mpz_fact_loop, hne, if_false]

/-- Entered with a negative counter, the loop of `mpz_fact` never reaches zero. -/
theorem mpz_fact_loop_negative (fuel : ℕ) :
    ∀ (result m : Int), m < 0 → mpz_fact_loop fuel result m = .error .outOfFuel := by
  induction fuel with
  | zero =>
    intro result m hm
    have hne : (m = 0) ↔ False := by
      constructor
      · intro h0
        omega
      · intro h0
        exact h0.elim
    simp only [mpz_fact_loop, hne, if_false]
  | succ fuel ih =>
    intro result m hm
    have hne : (m = 0) ↔ False := by
      constructor
      · intro h0
        omega
      · intro h0
        exact h0.elim
    simp only [mpz_fact_loop, hne, if_false]
    exact ih _ _ (by omega)

/-- C14: `mpz_fact` terminates on every integer input.  For `n < 2`, the negative integers
included, it returns `1` without entering the loop (no fuel is needed, although the loop
itself would not end from a negative counter).  For `n ≥ 2` the counter `m` starts at `n`,
is `n - j` after `j` iterations, and reaches zero after exactly `n` iterations: fewer than `n`
units of fuel cut the loop short and `n` units suffice. -/
theorem mpz_fact_terminates (n : Int) :
    (n < 2 → ∀ fuel, mpz_fact fuel n = .ok 1) ∧
    (n < 0 → ∀ fuel result, mpz_fact_loop fuel result n = .error .outOfFuel) ∧
    (2 ≤ n →
      (∀ (j fuel : ℕ) (result : Int), j ≤ n.toNat →
        mpz_fact_loop (fuel + j) result n
          = mpz_fact_loop fuel (result * (n.toNat.descFactorial j : Int)) (n - j)) ∧
      (∀ (fuel : ℕ) (result : Int),
        mpz_fact_loop (fuel + n.toNat) result n = mpz_fact_loop 0
          (result * (n.toNat.factorial : Int)) 0) ∧
      (∀ fuel, fuel < n.toNat → mpz_fact fuel n = .error .outOfFuel) ∧
      (∀ fuel, n.toNat ≤ fuel → mpz_fact fuel n = .ok (n.toNat.factorial : Int))) ∧
    (∃ r, mpz_fact n.toNat n = .ok r) := by
  refine ⟨?_, ?_, ?_, ?_⟩
  · intro h fuel
    simp [mpz_fact, h]
  · intro h fuel result
    exact mpz_fact_loop_negative fuel result n h
  · intro h
    have hn : n = (n.toNat : Int) := by omega
    refine ⟨?_, ?_, ?_, ?_⟩
    · intro j fuel result hj
      have key := mpz_fact_loop_steps j n.toNat fuel result hj
      rw [← hn] at key
      exact key
    · intro fuel result
      have key := mpz_fact_loop_steps n.toNat n.toNat fuel result (le_refl _)
      rw [Nat.descFactorial_self, ← hn, sub_self] at key
      rw [key]
      cases fuel <;> simp [mpz_fact_loop]
    · intro fuel hf
      have key := mpz_fact_loop_short n.toNat fuel 1 hf
      rw [← hn] at key
      have h2 : ¬ n < 2 := by omega
      simp only [mpz_fact, h2, if_false, key]
    · intro fuel hf
      exact mpz_fact_eq fuel n hf
  · exact ⟨_, mpz_fact_eq n.toNat n (le_refl _)⟩

/-- Witness for C14 at `n = 5`: four units of fuel are too few, five suffice. -/
theorem mpz_fact_terminates_witness :
    (2 : Int) ≤ 5 ∧ mpz_fact 4 5 = .error .outOfFuel ∧ mpz_fact 5 5 = .ok 120 :=
  ⟨by decide, ((mpz_fact_terminates 5).2.2.1 (by decide)).2.2.1 4 (by decide),
    by simpa using ((mpz_fact_terminates 5).2.2.1 (by decide)).2.2.2 5 (by decide)⟩

/-- Strings that agree on their first `n` characters have a stopping index of at least `n`. -/
theorem le_commonPrefixLength (n : ℕ) :
    ∀ (S R : List Char), n ≤ S.length → n ≤ R.length → S.take n = R.take n →
      n ≤ commonPrefixLength S R := by
  induction n with
  | zero => intro S R _ _ _; exact Nat.zero_le _
  | succ n ih =>
    intro S R hS hR htake
    cases S with
    | nil => simp at hS
    | cons c s =>
      cases R with
      | nil => simp at hR
      | cons d r =>
        simp only [List.take_succ_cons, List.cons.injEq] at htake
        simp only [List.length_cons, Nat.add_le_add_iff_right] at hS hR
        have := ih s r hS hR htake.2
        simp only [commonPrefixLength, htake.1, if_true]
        omega

/-- The accuracy of a string that agrees with the reference up to its last character, whatever
that last character is. -/
theorem verifier_accuracy_last (S R : List Char) (hL : 1 ≤ S.length) (hR : S.length ≤ R.length)
    (hpre : S.take (S.length - 1) = R.take (S.length - 1)) :
    verifier_accuracy S R = (S.length : Int) - 2 := by
  have hge := le_commonPrefixLength (S.length - 1) S R (by omega) (by omega) hpre
  have hle := commonPrefixLength_le S R
  have hne : S ≠ [] := by
    intro h0
    rw [h0] at hL
    simp at hL
  rw [verifier_accuracy_eq]
  split
  · rename_i hlt
    have : commonPrefixLength S R = S.length - 1 := by omega
    rw [this]
    omega
  · simp only [hne, if_false]

/-- The C function `round` at `100` and below. -/
theorem c_round_le_hundred (q : ℚ) (h : q ≤ 100) : c_round q ≤ 100 := by
  unfold c_round
  split
  · have : ⌊q + 1 / 2⌋ < 101 := by
      rw [Int.floor_lt]
      push_cast
      linarith
    omega
  · rename_i hneg
    have : 0 ≤ ⌊-q + 1 / 2⌋ := by
      rw [Int.floor_nonneg]
      linarith
    omega

/-- The C function `round` at `100`. -/
theorem c_round_hundred : c_round 100 = 100 := by
  unfold c_round
  rw [if_pos (by norm_num), Int.floor_eq_iff]
  constructor <;> norm_num

/-- C15: for every reference `R` and every computed string `S` of length `L ≥ 1` (with
`L ≤ length R`) whose first `L - 1` characters match `R`, the verifier reports accuracy `L - 2`
whether the last character of `S` matches `R` or not: any other string of the same length with
the same first `L - 1` characters gets the same accuracy.  For `L ≥ 3` the percentage is `100`
in either case. -/
theorem verifier_last_digit_ignored (S R : List Char) (hL : 1 ≤ S.length)
    (hR : S.length ≤ R.length) (hpre : S.take (S.length - 1) = R.take (S.length - 1)) :
    verifier_accuracy S R = (S.length : Int) - 2 ∧
    (∀ S' : List Char, S'.length = S.length →
      S'.take (S.length - 1) = S.take (S.length - 1) →
      verifier_accuracy S' R = verifier_accuracy S R) ∧
    (3 ≤ S.length → verifier_percent S R = some 100 ∧
      ∀ S' : List Char, S'.length = S.length →
        S'.take (S.length - 1) = S.take (S.length - 1) →
        verifier_percent S' R = some 100) := by
  have hacc := verifier_accuracy_last S R hL hR hpre
  have hother : ∀ S' : List Char, S'.length = S.length →
      S'.take (S.length - 1) = S.take (S.length - 1) →
      verifier_accuracy S' R = (S.length : Int) - 2 := by
    intro S' hlen htake
    have := verifier_accuracy_last S' R (by omega) (by omega) (by rw [hlen, htake, hpre])
    rw [this, hlen]
  have hpct : ∀ T : List Char, T.length = S.length → 3 ≤ S.length →
      verifier_accuracy T R = (S.length : Int) - 2 → verifier_percent T R = some 100 := by
    intro T hlen h3 hT
    have hd : digitsCalculated T = (S.length : Int) - 2 := by
      unfold digitsCalculated
      rw [hlen]
    have hd0 : ¬ ((S.length : Int) - 2 = 0) := by omega
    have hq : (((S.length : Int) - 2 : Int) : ℚ) ≠ 0 := by exact_mod_cast hd0
    simp only [verifier_percent, hd, hT, hd0, if_false, div_self hq, mul_one, c_round_hundred]
  refine ⟨hacc, ?_, ?_⟩
  · intro S' hlen htake
    rw [hother S' hlen htake, hacc]
  · intro h3
    exact ⟨hpct S rfl h3 hacc, fun S' hlen htake => hpct S' hlen h3 (hother S' hlen htake)⟩

/-- Witness for C15: `3.14158`, whose last digit is wrong, against a reference beginning
`3.14159265` is reported with accuracy `5` and `100` percent. -/
theorem verifier_last_digit_ignored_witness :
    1 ≤ "3.14158".toList.length ∧ "3.14158".toList.length ≤ "3.14159265".toList.length ∧
    "3.14158".toList.take ("3.14158".toList.length - 1)
      = "3.14159265".toList.take ("3.14158".toList.length - 1) ∧
    verifier_accuracy "3.14158".toList "3.14159265".toList
      = ("3.14158".toList.length : Int) - 2 ∧
    verifier_percent "3.14158".toList "3.14159265".toList = some 100 :=
  ⟨by decide, by decide, by decide,
    (verifier_last_digit_ignored "3.14158".toList "3.14159265".toList (by decide) (by decide)
      (by decide)).1,
    ((verifier_last_digit_ignored "3.14158".toList "3.14159265".toList (by decide) (by decide)
      (by decide)).2.2 (by decide)).1⟩

/-- C16: for every non-empty computed string `S` and every reference `R` of any length, the
reported accuracy satisfies `-1 ≤ accuracy ≤ length(S) - 2 = digitsCalculated`; so for
`length(S) ≥ 3` the ratio `accuracy / digitsCalculated` is at most `1` and the reported
percentage is at most `100`. -/
theorem verifier_accuracy_bounds (S R : List Char) (hS : S ≠ []) :
    -1 ≤ verifier_accuracy S R ∧
    verifier_accuracy S R ≤ (S.length : Int) - 2 ∧
    digitsCalculated S = (S.length : Int) - 2 ∧
    (3 ≤ S.length →
      (verifier_accuracy S R : ℚ) / (digitsCalculated S : ℚ) ≤ 1 ∧
      ∃ p, verifier_percent S R = some p ∧ p ≤ 100) := by
  have hle := commonPrefixLength_le S R
  have hlen : 1 ≤ S.length := by
    cases S with
    | nil => exact (hS rfl).elim
    | cons c s => simp
  have hlo : -1 ≤ verifier_accuracy S R := by
    rw [verifier_accuracy_eq]
    split_ifs with h1
    · omega
    · omega
  have hhi : verifier_accuracy S R ≤ (S.length : Int) - 2 := by
    rw [verifier_accuracy_eq]
    split_ifs with h1
    · omega
    · omega
  refine ⟨hlo, hhi, rfl, ?_⟩
  intro h3
  have hd0 : ¬ (digitsCalculated S = 0) := by
    unfold digitsCalculated
    omega
  have hdpos : (0 : ℚ) < (digitsCalculated S : ℚ) := by
    have : (0 : Int) < digitsCalculated S := by
      unfold digitsCalculated
      omega
    exact_mod_cast this
  have hratio : (verifier_accuracy S R : ℚ) / (digitsCalculated S : ℚ) ≤ 1 := by
    rw [div_le_one hdpos]
    have : verifier_accuracy S R ≤ digitsCalculated S := hhi
    exact_mod_cast this
  refine ⟨hratio,
    c_round (100 * ((verifier_accuracy S R : ℚ) / (digitsCalculated S : ℚ))), ?_,
    c_round_le_hundred _ (by linarith)⟩
  simp only [verifier_percent, hd0, if_false]

/-- Witness for C16: the computed string `3.14158` against an empty reference. -/
theorem verifier_accuracy_bounds_witness :
    "3.14158".toList ≠ [] ∧ -1 ≤ verifier_accuracy "3.14158".toList [] ∧
    verifier_accuracy "3.14158".toList [] ≤ ("3.14158".toList.length : Int) - 2 :=
  ⟨by decide, (verifier_accuracy_bounds "3.14158".toList [] (by decide)).1,
    (verifier_accuracy_bounds "3.14158".toList [] (by decide)).2.1⟩

end FunWithPi
